import Mathlib

/-!
Verification of the ranking engine of react-docs-mcp.

The definitions below are a shallow embedding of src/searchEngine.ts,
src/embeddingService.ts and src/config.ts. JS numbers are modelled as exact
rationals, JS strings as Lean strings handled through their character lists
(all character-level functions recurse structurally over `List Char`, so every
definition is executable). External collaborators (the docs manager, the
markdown parser and the embedding provider) are parameters of the functions
that call them, as are `Math.sqrt` and the query embedding. Fallible code is
modelled in `Except String`.
-/

namespace ReactDocsMcp

/-- Characters of a string, lower-cased; models `String.prototype.toLowerCase`
on the ASCII range that `Char.toLower` handles. -/
def lowerChars (s : String) : List Char := s.toList.map Char.toLower

/-- The string rebuilt from its lower-cased characters. -/
def lowerString (s : String) : String := String.mk (lowerChars s)

/-- Accumulating splitter: maximal runs of non-whitespace characters, in order.
`acc` holds the current run reversed. -/
def wsSplit (acc : List Char) : List Char → List (List Char)
  | [] => if acc = [] then [] else [acc.reverse]
  | c :: cs =>
    if c.isWhitespace then
      if acc = [] then wsSplit [] cs else acc.reverse :: wsSplit [] cs
    else wsSplit (c :: acc) cs

/-- Query tokenization, searchEngine.ts line 131:
`query.toLowerCase().split(&bsol;s+ regex).filter(Boolean)`. Splitting on runs of
whitespace and dropping empty tokens yields exactly the maximal non-whitespace
runs of the lower-cased query. -/
def tokenize (query : String) : List String :=
  (wsSplit [] (lowerChars query)).map String.mk

/-- Whether `needle` occurs as a contiguous substring of `hay`; models
`String.prototype.includes`. -/
def listContains (hay needle : List Char) : Bool :=
  needle.isPrefixOf hay ||
    match hay with
    | [] => false
    | _ :: t => listContains t needle

/-- Index of the first occurrence of `needle` in `hay`, `none` when absent;
models `String.prototype.indexOf` (which reports the empty needle at index 0). -/
def firstIdx (hay needle : List Char) : Option Nat :=
  if needle.isPrefixOf hay then some 0
  else
    match hay with
    | [] => none
    | _ :: t => (firstIdx t needle).map (· + 1)

/-- Models `String.prototype.trim`: strip whitespace from both ends. -/
def trimChars (cs : List Char) : List Char :=
  ((cs.dropWhile Char.isWhitespace).reverse.dropWhile Char.isWhitespace).reverse

/-- `trim` on strings. -/
def trimStr (s : String) : String := String.mk (trimChars s.toList)

/-- A parsed document record (`ParsedDoc`, types.ts). The raw-markdown `content`
field is omitted: no operation modelled here reads it. `sectionName` models the
`section` field (that word is reserved in Lean), and the `metadata` object is
flattened into its two fields the search engine reads, `title` and
`description`. -/
structure ParsedDoc where
  path : String
  sectionName : String
  title : String
  description : Option String
  plainText : String
  embedding : Option (List ℚ)
deriving DecidableEq

/-- A search result (`SearchResult`, types.ts). -/
structure SearchResult where
  doc : ParsedDoc
  score : ℚ
  snippet : String
deriving DecidableEq

/-- Search options (`SearchOptions`, types.ts); `sectionOpt` models the
`section` field. -/
structure SearchOptions where
  sectionOpt : Option String
  limit : Option Nat
  minScore : Option ℚ
  useSemanticSearch : Option Bool
deriving DecidableEq

/-- config.ts `CONFIG.search.defaultLimit`. -/
def defaultLimit : Nat := 10

/-- config.ts `CONFIG.search.maxLimit`. -/
def maxLimit : Nat := 50

/-- config.ts `CONFIG.search.minScore`. -/
def minScoreDefault : ℚ := 1/10

/-- config.ts `CONFIG.search.semanticSearchEnabled`. -/
def semanticSearchEnabled : Bool := true

/-- config.ts `CONFIG.search.semanticMinSimilarity`. -/
def semanticMinSimilarity : ℚ := 3/10

/-- config.ts `CONFIG.search.hybridKeywordWeight`. -/
def hybridKeywordWeight : ℚ := 3/10

/-- config.ts `CONFIG.search.hybridSemanticWeight`. -/
def hybridSemanticWeight : ℚ := 7/10

/-- config.ts `CONFIG.sections`. -/
def configSections : List String := ["learn", "reference", "blog", "community"]

/-- Pattern tokens for the fragment of JS regular expressions this development
models: literal characters and the dot wildcard. scoreDocument builds its
pattern from a whitespace-free query term (searchEngine.ts line 240), and the
theorems below only quantify over terms inside this fragment. -/
inductive RegexTok where
  | lit : Char → RegexTok
  | dot : RegexTok
deriving DecidableEq

/-- Characters on which the model refuses to build a pattern. A lone open
parenthesis makes JS `RegExp` construction itself throw a SyntaxError
(unterminated group); the other characters listed change the meaning of a
pattern in ways outside the modelled fragment, so patterns holding them are
rejected rather than silently misread as literals. -/
def regexMeta : List Char := ['(', ')', '[', ']', '{', '}', '*', '+', '?', '\\', '|', '^', '$']

/-- Token list of `new RegExp(term)` for the modelled fragment: wildcard for the
dot, literals elsewhere, error on the metacharacters above. -/
def parseRegex : List Char → Except String (List RegexTok)
  | [] => Except.ok []
  | c :: cs =>
    if c ∈ regexMeta then Except.error "Invalid regular expression"
    else do
      let ts ← parseRegex cs
      Except.ok ((if c = '.' then RegexTok.dot else RegexTok.lit c) :: ts)

/-- JS line terminators, the characters the dot wildcard does not match. -/
def lineTerminators : List Char := ['\n', '\r', Char.ofNat 0x2028, Char.ofNat 0x2029]

/-- One token against one character. -/
def tokMatch : RegexTok → Char → Bool
  | RegexTok.lit c, d => c = d
  | RegexTok.dot, d => !(lineTerminators.contains d)

/-- Whether the token list matches at the start of `s`; each token consumes one
character. -/
def toksMatchHere : List RegexTok → List Char → Bool
  | [], _ => true
  | _ :: _, [] => false
  | t :: ts, c :: cs => tokMatch t c && toksMatchHere ts cs

/-- Left-to-right non-overlapping scan counting matches of a non-empty token
list, advancing past each match; the scan behind `text.match(regex)` with the
global flag. -/
def countScan (toks : List RegexTok) : List Char → Nat
  | [] => 0
  | c :: cs =>
    if toksMatchHere toks (c :: cs) then
      1 + countScan toks (List.drop (toks.length - 1) cs)
    else countScan toks cs
termination_by s => s.length
decreasing_by
  · simp only [List.length_drop, List.length_cons]; omega
  · simp only [List.length_cons]; omega

/-- Number of matches `text.match(regex)` reports with the global flag: the
non-overlapping scan, except that an empty pattern matches once at every
position including the end of the text. -/
def countMatches (toks : List RegexTok) (s : List Char) : Nat :=
  match toks with
  | [] => s.length + 1
  | _ :: _ => countScan toks s

/-- Score contribution of one query term, searchEngine.ts lines 228-250: 10 for
a title substring, 5 for a path substring, half a point per body match of the
term read as a regex pattern, 3 for a description substring. All inputs arrive
lower-cased, as in the source. -/
def scoreTerm (titleLower pathLower plainTextLower : List Char)
    (descriptionLower : Option (List Char)) (term : List Char) : Except String ℚ := do
  let s1 : ℚ := if listContains titleLower term then 10 else 0
  let s2 : ℚ := if listContains pathLower term then 5 else 0
  let toks ← parseRegex term
  let s3 : ℚ := (countMatches toks plainTextLower : ℚ) * (1/2)
  let s4 : ℚ :=
    match descriptionLower with
    | some d => if listContains d term then 3 else 0
    | none => 0
  Except.ok (s1 + s2 + s3 + s4)

/-- Sum of per-term scores over the query terms. -/
def scoreTerms (titleLower pathLower plainTextLower : List Char)
    (descriptionLower : Option (List Char)) : List (List Char) → Except String ℚ
  | [] => Except.ok 0
  | t :: ts => do
    let s ← scoreTerm titleLower pathLower plainTextLower descriptionLower t
    let rest ← scoreTerms titleLower pathLower plainTextLower descriptionLower ts
    Except.ok (s + rest)

/-- scoreDocument, searchEngine.ts lines 221-253. -/
def scoreDocument (doc : ParsedDoc) (queryTerms : List String) : Except String ℚ :=
  scoreTerms (lowerChars doc.title) (lowerChars doc.path) (lowerChars doc.plainText)
    (doc.description.map (fun d => lowerChars d)) (queryTerms.map String.toList)

/-- One step of the first-match loop of generateSnippet, searchEngine.ts lines
265-271: the accumulator holds the best (index, matched-term length) so far and
a later term replaces it only at a strictly smaller index. -/
def snippetStep (lowerPT : List Char) (acc : Option (Nat × Nat)) (term : String) :
    Option (Nat × Nat) :=
  match firstIdx lowerPT term.toList with
  | none => acc
  | some i =>
    match acc with
    | none => some (i, term.toList.length)
    | some (j, l) => if i < j then some (i, term.toList.length) else some (j, l)

/-- First match of any query term in the lower-cased body, with the length of
the matching term. -/
def snippetMatch (lowerPT : List Char) (queryTerms : List String) : Option (Nat × Nat) :=
  queryTerms.foldl (snippetStep lowerPT) none

/-- generateSnippet, searchEngine.ts lines 258-290. With no match the snippet
falls back to the description when that is truthy in JS (present and non-empty)
and otherwise to the first 150 body characters plus an ellipsis; with a match
the window spans 75 characters each side of the matched term, clamped,
ellipsis-marked on each truncated side, and the result is trimmed. -/
def generateSnippet (doc : ParsedDoc) (queryTerms : List String) : String :=
  let pt := doc.plainText.toList
  match snippetMatch (lowerChars doc.plainText) queryTerms with
  | none =>
    match doc.description with
    | some d => if d = "" then String.mk (pt.take 150) ++ "..." else d
    | none => String.mk (pt.take 150) ++ "..."
  | some (idx, mlen) =>
    let start := idx - 75
    let stop := min pt.length (idx + mlen + 75)
    trimStr (String.mk
      ((if 0 < start then ['.', '.', '.'] else []) ++
        (pt.drop start).take (stop - start) ++
        (if stop < pt.length then ['.', '.', '.'] else [])))

/-- Sum of pairwise products; the dot-product loop of cosineSimilarity. -/
def dotProduct (a b : List ℚ) : ℚ := (List.zipWith (fun x y => x * y) a b).sum

/-- Sum of squares of one vector, the `normA` and `normB` accumulators of
cosineSimilarity. -/
def sumSquares (a : List ℚ) : ℚ := (a.map (fun x => x * x)).sum

/-- cosineSimilarity, embeddingService.ts lines 90-110. `Math.sqrt` is the
parameter `sqrtQ`; theorems that need its defining property take it as a
hypothesis. Unequal lengths throw; a zero magnitude product yields 0 instead of
dividing. -/
def cosineSimilarity (sqrtQ : ℚ → ℚ) (a b : List ℚ) : Except String ℚ :=
  if a.length ≠ b.length then Except.error "Vectors must have same length"
  else
    let magnitude := sqrtQ (sumSquares a) * sqrtQ (sumSquares b)
    if magnitude = 0 then Except.ok 0
    else Except.ok (dotProduct a b / magnitude)

/-- JS `x || d` for the numeric limit option, searchEngine.ts line 124: both an
absent and a zero limit fall back to the default, 0 being falsy. -/
def orDefault (x : Option Nat) (d : Nat) : Nat :=
  match x with
  | none => d
  | some n => if n = 0 then d else n

/-- The section-filter guard, searchEngine.ts line 138: skip the document when a
filter is present, non-empty (an empty string is falsy in JS and filters
nothing) and different from the lower-cased document section. -/
def sectionSkip (sectionFilter : Option String) (doc : ParsedDoc) : Bool :=
  match sectionFilter with
  | none => false
  | some s => !(s == "") && !(lowerString doc.sectionName == s)

/-- The keyword-search candidate loop, searchEngine.ts lines 136-148: score
every non-skipped document and keep those reaching `minScore`, with a snippet. -/
def scoreCandidates (queryTerms : List String) (minScore : ℚ)
    (sectionFilter : Option String) : List ParsedDoc → Except String (List SearchResult)
  | [] => Except.ok []
  | doc :: rest =>
    if sectionSkip sectionFilter doc then
      scoreCandidates queryTerms minScore sectionFilter rest
    else do
      let sc ← scoreDocument doc queryTerms
      let others ← scoreCandidates queryTerms minScore sectionFilter rest
      if minScore ≤ sc then
        Except.ok ({ doc := doc, score := sc, snippet := generateSnippet doc queryTerms } :: others)
      else Except.ok others

/-- `results.sort((a, b) => b.score - a.score)`: sort by score descending. -/
def sortResults (rs : List SearchResult) : List SearchResult :=
  rs.mergeSort (fun a b => decide (b.score ≤ a.score))

/-- keywordSearch, searchEngine.ts lines 119-155. -/
def keywordSearch (docs : List ParsedDoc) (query : String) (options : SearchOptions) :
    Except String (List SearchResult) := do
  let limit := min (orDefault options.limit defaultLimit) maxLimit
  let minScore := options.minScore.getD minScoreDefault
  let sectionFilter := options.sectionOpt.map lowerString
  let queryTerms := tokenize query
  let cands ← scoreCandidates queryTerms minScore sectionFilter docs
  Except.ok ((sortResults cands).take limit)

/-- The hybrid candidate loop, searchEngine.ts lines 190-209: keyword score
scaled by 100, cosine similarity against the query embedding, weighted
combination, and the similarity floor as the only admission test. Documents
reaching this loop carry an embedding (they were filtered on line 179); one
without is skipped. -/
def hybridCandidates (sqrtQ : ℚ → ℚ) (queryEmbedding : List ℚ)
    (queryTerms : List String) : List ParsedDoc → Except String (List SearchResult)
  | [] => Except.ok []
  | doc :: rest =>
    match doc.embedding with
    | none => hybridCandidates sqrtQ queryEmbedding queryTerms rest
    | some e => do
      let kw ← scoreDocument doc queryTerms
      let keywordScore := kw / 100
      let semanticScore ← cosineSimilarity sqrtQ queryEmbedding e
      let hybridScore := hybridKeywordWeight * keywordScore + hybridSemanticWeight * semanticScore
      let others ← hybridCandidates sqrtQ queryEmbedding queryTerms rest
      if semanticMinSimilarity ≤ semanticScore then
        Except.ok ({ doc := doc, score := hybridScore,
                     snippet := generateSnippet doc queryTerms } :: others)
      else Except.ok others

/-- semanticSearch, searchEngine.ts lines 160-216. The query embedding comes
from the embedding provider, the fallible parameter `embedQ`; the lazy
embedding-generation trigger on line 165 is engine state, handled by
`generateEmbeddings` below. -/
def semanticSearch (sqrtQ : ℚ → ℚ) (embedQ : String → Except String (List ℚ))
    (docs : List ParsedDoc) (query : String) (options : SearchOptions) :
    Except String (List SearchResult) := do
  let limit := min (orDefault options.limit defaultLimit) maxLimit
  let sectionFilter := options.sectionOpt.map lowerString
  let queryEmbedding ← embedQ query
  let filtered := docs.filter (fun doc => !(sectionSkip sectionFilter doc) && doc.embedding.isSome)
  let queryTerms := tokenize query
  let cands ← hybridCandidates sqrtQ queryEmbedding queryTerms filtered
  Except.ok ((sortResults cands).take limit)

/-- search, searchEngine.ts lines 91-114: a query that is empty after trimming
short-circuits to an empty list, then the mode flag dispatches; the lazy
indexing on line 96 is engine state, handled by `indexDocuments` below. -/
def search (sqrtQ : ℚ → ℚ) (embedQ : String → Except String (List ℚ))
    (docs : List ParsedDoc) (query : String) (options : SearchOptions) :
    Except String (List SearchResult) :=
  if trimStr query = "" then Except.ok []
  else if options.useSemanticSearch.getD semanticSearchEnabled then
    semanticSearch sqrtQ embedQ docs query options
  else keywordSearch docs query options

/-- The document index: an insertion-ordered association list, the shallow
embedding of the JS `Map` in searchEngine.ts. -/
abbrev Store := List (String × ParsedDoc)

/-- JS `Map.set`: overwrite in place when the key exists, append otherwise. -/
def mapSet (m : Store) (k : String) (v : ParsedDoc) : Store :=
  if m.any (fun kv => kv.1 == k) then
    m.map (fun kv => if kv.1 == k then (k, v) else kv)
  else m ++ [(k, v)]

/-- JS `Map.get` as an Option. -/
def mapGet (m : Store) (k : String) : Option ParsedDoc :=
  (m.find? (fun kv => kv.1 == k)).map (fun kv => kv.2)

/-- The characters of the extension marker stripped by getDocByPath. -/
def mdSuffix : List Char := ['.', 'm', 'd']

/-- The normalization of searchEngine.ts line 304, a replace of the trailing
`.md` regex by the empty string: strip one trailing ".md" when present. -/
def stripMd (path : String) : String :=
  let cs := path.toList
  if mdSuffix.isSuffixOf cs then String.mk (cs.take (cs.length - 3)) else path

/-- getDocByPath, searchEngine.ts lines 297-307: lookup after
extension-stripping normalization; absence is `none` and the function cannot
throw. The lazy indexing on line 299 is engine state, handled by
`indexDocuments`. -/
def getDocByPath (store : Store) (path : String) : Option ParsedDoc :=
  mapGet store (stripMd path)

/-- The indexing loop of indexDocuments, searchEngine.ts lines 38-46: fetch and
parse each listed document through the external collaborators `readDoc` and
`parseMd`, insert each success keyed by the parsed path, record a warning and
continue on any failure. Returns the store and the warnings in order. -/
def indexLoop (readDoc : String → Except String String)
    (parseMd : String → String → Except String ParsedDoc) :
    List String → Store → Store × List String
  | [], acc => (acc, [])
  | p :: rest, acc =>
    match (do
      let content ← readDoc p
      parseMd content p : Except String ParsedDoc) with
    | Except.error _ =>
      let r := indexLoop readDoc parseMd rest acc
      (r.1, ("Failed to index document " ++ p) :: r.2)
    | Except.ok doc => indexLoop readDoc parseMd rest (mapSet acc doc.path doc)

/-- indexDocuments, searchEngine.ts lines 32-50: `documentIndex.clear()` then
the loop — the prior store is discarded and the index is rebuilt from scratch. -/
def indexDocuments (readDoc : String → Except String String)
    (parseMd : String → String → Except String ParsedDoc)
    (allDocs : List String) (_oldStore : Store) : Store × List String :=
  indexLoop readDoc parseMd allDocs []

/-- The engine state the stateful methods read and write: the document index
and the embeddings-completed flag. -/
structure EngineState where
  index : Store
  embeddingsGenerated : Bool
deriving DecidableEq

/-- Embedding text of one record, searchEngine.ts line 67: title, description
(empty string when absent, `||` being falsy on it) and the first 1000 body
characters, dot-separated. -/
def embedText (doc : ParsedDoc) : String :=
  doc.title ++ ". " ++ doc.description.getD "" ++ ". " ++
    String.mk (doc.plainText.toList.take 1000)

/-- A record with its embedding assigned, the `doc.embedding = embedding`
mutation of searchEngine.ts line 69. -/
def withEmbedding (doc : ParsedDoc) (v : List ℚ) : ParsedDoc :=
  { doc with embedding := some v }

/-- The per-document loop of generateEmbeddings, searchEngine.ts lines 64-75:
embed every record of the index in order, stopping at the first provider
failure; assignments made before a failure persist. Returns the updated index,
the texts sent to the provider, and the error if one occurred. -/
def embedLoop (embed : String → Except String (List ℚ)) :
    Store → Store × List String × Option String
  | [] => ([], [], none)
  | (k, doc) :: rest =>
    match embed (embedText doc) with
    | Except.error e => ((k, doc) :: rest, [embedText doc], some e)
    | Except.ok v =>
      let r := embedLoop embed rest
      ((k, withEmbedding doc v) :: r.1, embedText doc :: r.2.1, r.2.2)

/-- generateEmbeddings, searchEngine.ts lines 56-83: a completed pass (the
`embeddingsGenerated` flag) makes the call a no-op with no provider calls;
otherwise the provider is initialized (`init`) and every record of the index is
embedded, the flag being set only when the whole loop succeeds. An
initialization or per-document failure surfaces as the error component and the
partially updated index is left behind. Returns the new state, the provider
calls, and the error. -/
def generateEmbeddings (init : Except String Unit)
    (embed : String → Except String (List ℚ)) (st : EngineState) :
    EngineState × List String × Option String :=
  if st.embeddingsGenerated then (st, [], none)
  else
    match init with
    | Except.error e => (st, [], some e)
    | Except.ok _ =>
      let r := embedLoop embed st.index
      match r.2.2 with
      | some e => ({ index := r.1, embeddingsGenerated := false }, r.2.1, some e)
      | none => ({ index := r.1, embeddingsGenerated := true }, r.2.1, none)

/-- getSections, searchEngine.ts lines 312-314: a copy of the configured
section list. The method reads no engine state and, unlike the other read
operations, has no lazy-indexing guard. -/
def getSections (_st : EngineState) : List String := configSections

/-! Specification-side definitions: these follow the wording of the spec and of
the claims, to be compared with the source-side definitions above. -/

/-- Number of occurrences of a non-empty `needle` in a text, counted by a
left-to-right non-overlapping scan of literal matches; the occurrence count the
keyword-scoring spec describes. -/
def countLiteral (needle : List Char) : List Char → Nat
  | [] => 0
  | c :: cs =>
    if needle.isPrefixOf (c :: cs) then
      1 + countLiteral needle (List.drop (needle.length - 1) cs)
    else countLiteral needle cs
termination_by s => s.length
decreasing_by
  · simp only [List.length_drop, List.length_cons]; omega
  · simp only [List.length_cons]; omega

/-- Modelled from the claim wording for the keyword score of one term: 10 for a
title substring, 5 for a path substring, 3 for a description substring, and half
a point per literal occurrence of the term in the body, everything
case-insensitive through lower-casing. -/
def claimTermScore (titleLower pathLower plainTextLower : List Char)
    (descriptionLower : Option (List Char)) (term : List Char) : ℚ :=
  (if listContains titleLower term then (10 : ℚ) else 0) +
    (if listContains pathLower term then (5 : ℚ) else 0) +
    (if (match descriptionLower with
         | some d => listContains d term
         | none => false) then (3 : ℚ) else 0) +
    (countLiteral term plainTextLower : ℚ) * (1/2)

/-- Modelled from the claim wording for the whole keyword score: the sum over
the query terms of the per-term scores. -/
def claimKeywordScore (doc : ParsedDoc) (queryTerms : List String) : ℚ :=
  (queryTerms.map (fun term =>
    claimTermScore (lowerChars doc.title) (lowerChars doc.path)
      (lowerChars doc.plainText) (doc.description.map (fun d => lowerChars d))
      term.toList)).sum

/-- Merge of two first-match candidates: the new one (right) wins only at a
strictly smaller index. -/
def mergeOpt : Option (Nat × Nat) → Option (Nat × Nat) → Option (Nat × Nat)
  | none, r => r
  | some p, none => some p
  | some (j, l), some (i, m) => if i < j then some (i, m) else some (j, l)

/-- Modelled from the claim wording for the snippet position: the earliest
character position at which any query term occurs in the lower-cased body — the
minimum over the first-occurrence indices of the terms. -/
def claimEarliest (lowerPT : List Char) : List String → Option Nat
  | [] => none
  | t :: ts =>
    match firstIdx lowerPT t.toList, claimEarliest lowerPT ts with
    | none, r => r
    | some i, none => some i
    | some i, some j => some (min i j)

/-- Modelled from the amended claim wording for the snippet: around the
earliest position, a window of 75 characters each side of the occurrence of the
matched term — the first term in the list whose earliest occurrence sits at
that position — clamped to the body, ellipsis-prefixed iff the window starts
after position 0, suffixed iff it stops before the end, trimmed; with no match,
the description when present and non-empty, else the first 150 body characters
plus an ellipsis. -/
def claimSnippet (doc : ParsedDoc) (queryTerms : List String) : String :=
  let pt := doc.plainText.toList
  let lpt := lowerChars doc.plainText
  match claimEarliest lpt queryTerms with
  | none =>
    match doc.description with
    | some d => if d = "" then String.mk (pt.take 150) ++ "..." else d
    | none => String.mk (pt.take 150) ++ "..."
  | some idx =>
    let mlen :=
      match queryTerms.find? (fun t => firstIdx lpt t.toList == some idx) with
      | some t => t.toList.length
      | none => 0
    let start := idx - 75
    let stop := min pt.length (idx + mlen + 75)
    trimStr (String.mk
      ((if 0 < start then ['.', '.', '.'] else []) ++
        (pt.drop start).take (stop - start) ++
        (if stop < pt.length then ['.', '.', '.'] else [])))

/-- A document qualifies for the keyword-mode result set when it passes the
section filter and its keyword score is computed without error and reaches the
minimum score. -/
def keywordQualifies (queryTerms : List String) (ms : ℚ) (sf : Option String)
    (doc : ParsedDoc) : Bool :=
  !(sectionSkip sf doc) &&
    (match scoreDocument doc queryTerms with
     | Except.ok sc => decide (ms ≤ sc)
     | Except.error _ => false)

/-- A document qualifies for the hybrid candidate set when it carries an
embedding, both scores compute without error, and its cosine similarity to the
query embedding reaches the configured floor. -/
def hybridQualifies (sqrtQ : ℚ → ℚ) (qe : List ℚ) (queryTerms : List String)
    (doc : ParsedDoc) : Bool :=
  match doc.embedding with
  | none => false
  | some e =>
    match scoreDocument doc queryTerms, cosineSimilarity sqrtQ qe e with
    | Except.ok _, Except.ok s => decide (semanticMinSimilarity ≤ s)
    | _, _ => false

/-- A document qualifies for the hybrid-mode result set when it qualifies as a
hybrid candidate and passes the section filter. -/
def semQualifies (sqrtQ : ℚ → ℚ) (qe : List ℚ) (query : String)
    (options : SearchOptions) (doc : ParsedDoc) : Bool :=
  hybridQualifies sqrtQ qe (tokenize query) doc &&
    !(sectionSkip (options.sectionOpt.map lowerString) doc)

/-! Concrete records used by the closed witness and counterexample theorems. -/

/-- A one-word document whose title, path and body all match the query "x". -/
def c3doc : ParsedDoc :=
  { path := "learn/x", sectionName := "learn", title := "x", description := none,
    plainText := "x", embedding := none }

/-- A document whose body is "axc": the term "a.c" read as a regex pattern
matches it, while no literal occurrence of "a.c" exists. -/
def c2doc : ParsedDoc :=
  { path := "p", sectionName := "s", title := "t", description := none,
    plainText := "axc", embedding := none }

/-- A document for the regex-throw scenario. -/
def c9doc : ParsedDoc :=
  { path := "learn/y", sectionName := "learn", title := "y", description := none,
    plainText := "y", embedding := none }

/-- A second regex-scenario document with body "axc". -/
def c9doc2 : ParsedDoc :=
  { path := "q", sectionName := "s", title := "u", description := none,
    plainText := "axc", embedding := none }

/-- A record whose description is present but empty — falsy in JS. -/
def c7doc : ParsedDoc :=
  { path := "p", sectionName := "s", title := "T", description := some "",
    plainText := "abc", embedding := none }

/-- A record whose body starts with a space, exposing the final trim. -/
def c7doc2 : ParsedDoc :=
  { path := "p", sectionName := "s", title := "T", description := none,
    plainText := " b", embedding := none }

/-- A record carrying an embedding already, for the re-embedding scenario. -/
def c5doc : ParsedDoc :=
  { path := "p", sectionName := "s", title := "t", description := none,
    plainText := "x", embedding := some [1] }

/-- An engine state holding only `c5doc`, embeddings not yet marked generated. -/
def c5state : EngineState := { index := [("p", c5doc)], embeddingsGenerated := false }

/-- A provider that embeds every text as the vector [2]. -/
def c5embed : String → Except String (List ℚ) := fun _ => Except.ok [2]

/-- A candidate record with an embedding, for the hybrid witness. -/
def w1doc : ParsedDoc :=
  { path := "p", sectionName := "s", title := "", description := none,
    plainText := "", embedding := some [1] }

/-- A store with one record, for the lookup witness. -/
def w8store : Store :=
  [("learn/a", { path := "learn/a", sectionName := "learn", title := "A",
                 description := none, plainText := "a", embedding := none })]

/-- A record for the snippet witness. -/
def w7doc : ParsedDoc :=
  { path := "p", sectionName := "s", title := "T", description := none,
    plainText := "say b now", embedding := none }

/-- A key-document pair whose fetch succeeds, for the indexing witness. -/
def w6good : ParsedDoc :=
  { path := "learn/g", sectionName := "learn", title := "G", description := none,
    plainText := "g", embedding := none }

/-- A reader that fails on the identifier "bad" and returns raw content
otherwise, for the indexing witness. -/
def w6read : String → Except String String :=
  fun p => if p = "bad" then Except.error "io" else Except.ok p

/-- A parser that wraps raw content into a fixed-shape record, for the indexing
witness. -/
def w6parse : String → String → Except String ParsedDoc :=
  fun content p =>
    Except.ok { path := p, sectionName := "learn", title := content,
                description := none, plainText := content, embedding := none }

/-- The record `w6read` and `w6parse` together produce for a good identifier. -/
def w6f (q : String) : ParsedDoc :=
  { path := q, sectionName := "learn", title := q,
    description := none, plainText := q, embedding := none }

/-- A record without an embedding, for the embedding witness. -/
def w5doc1 : ParsedDoc :=
  { path := "a", sectionName := "s", title := "g", description := none,
    plainText := "x", embedding := none }

/-- A second record whose embedding text the witness provider rejects. -/
def w5doc2 : ParsedDoc :=
  { path := "b", sectionName := "s", title := "h", description := none,
    plainText := "y", embedding := none }

/-- A provider failing exactly on the embedding text of `w5doc2`. -/
def w5embed : String → Except String (List ℚ) :=
  fun t => if t = embedText w5doc2 then Except.error "boom" else Except.ok [5]

/-! Helper lemmas. -/

theorem sumSquares_nonneg (a : List ℚ) : 0 ≤ sumSquares a := by
  refine List.sum_nonneg ?_
  intro x hx
  obtain ⟨y, _, rfl⟩ := List.mem_map.mp hx
  exact mul_self_nonneg y

theorem string_mk_toList (s : String) : String.mk s.toList = s := by
  cases s
  rfl

theorem toList_append_md (p : String) : (p ++ ".md").toList = p.toList ++ mdSuffix :=
  String.data_append p ".md"

theorem stripMd_append_md (p : String) : stripMd (p ++ ".md") = p := by
  have hsuf : mdSuffix.isSuffixOf (p.toList ++ mdSuffix) = true := by
    rw [List.isSuffixOf_iff_suffix]
    exact List.suffix_append _ _
  simp only [stripMd, toList_append_md, hsuf, if_true]
  calc String.mk ((p.toList ++ mdSuffix).take ((p.toList ++ mdSuffix).length - 3))
      = String.mk ((p.toList ++ mdSuffix).take p.toList.length) := by
        rw [show ((p.toList ++ mdSuffix).length - 3) = p.toList.length by simp [mdSuffix]]
    _ = String.mk p.toList := by rw [List.take_left]
    _ = p := string_mk_toList p

theorem stripMd_of_not_md (p : String) (h : mdSuffix.isSuffixOf p.toList = false) :
    stripMd p = p := by
  have h' : mdSuffix.isSuffixOf p.data = false := h
  have h2 : ¬ (mdSuffix <:+ p.data) := by
    rw [← List.isSuffixOf_iff_suffix]
    simp [h']
  simp [stripMd, h2]

/-- C10: listing sections returns the fixed configured list
["learn", "reference", "blog", "community"] in that order for every engine
state — hence independently of the store contents, before any build, on an
empty store and after any rebuild — and consults no state, so it cannot
trigger lazy indexing. -/
theorem c10_getSections :
    (∀ st : EngineState, getSections st = ["learn", "reference", "blog", "community"]) ∧
    (∀ readDoc parseMd allDocs oldStore b,
      getSections ⟨(indexDocuments readDoc parseMd allDocs oldStore).1, b⟩ =
        getSections ⟨[], false⟩) :=
  ⟨fun _ => rfl, fun _ _ _ _ _ => rfl⟩

/-- C4: for equal-length vectors, cosine similarity is the dot product divided
by the product of the magnitudes, except that a zero magnitude on either side
yields 0 instead of a division error; unequal lengths raise an error
immediately. The square-root parameter is constrained by the defining property
of the real square root on nonnegative inputs: it vanishes exactly at 0. -/
theorem c4_cosineSimilarity (sqrtQ : ℚ → ℚ)
    (hsq : ∀ x : ℚ, 0 ≤ x → (sqrtQ x = 0 ↔ x = 0)) (a b : List ℚ) :
    (a.length = b.length →
      ((sumSquares a = 0 ∨ sumSquares b = 0) → cosineSimilarity sqrtQ a b = Except.ok 0) ∧
      (sumSquares a ≠ 0 → sumSquares b ≠ 0 →
        cosineSimilarity sqrtQ a b =
          Except.ok (dotProduct a b / (sqrtQ (sumSquares a) * sqrtQ (sumSquares b))))) ∧
    (a.length ≠ b.length →
      cosineSimilarity sqrtQ a b = Except.error "Vectors must have same length") := by
  constructor
  · intro hlen
    constructor
    · intro hzero
      have hmag : sqrtQ (sumSquares a) * sqrtQ (sumSquares b) = 0 := by
        rcases hzero with h | h
        · rw [(hsq _ (sumSquares_nonneg a)).mpr h, zero_mul]
        · rw [(hsq _ (sumSquares_nonneg b)).mpr h, mul_zero]
      simp [cosineSimilarity, hlen, hmag]
    · intro ha hb
      have hma : sqrtQ (sumSquares a) ≠ 0 := fun h =>
        ha ((hsq _ (sumSquares_nonneg a)).mp h)
      have hmb : sqrtQ (sumSquares b) ≠ 0 := fun h =>
        hb ((hsq _ (sumSquares_nonneg b)).mp h)
      simp [cosineSimilarity, hlen, mul_ne_zero hma hmb]
  · intro hlen
    simp [cosineSimilarity, hlen]

/-- Witness for C4 at concrete inputs: a zero vector against [3] gives 0, two
unit-length unequal vectors raise the length error, and [1, 0] against [0, 2]
divides the dot product by the product of the magnitudes. -/
theorem c4_witness :
    cosineSimilarity id [0] [3] = Except.ok 0 ∧
    cosineSimilarity id [1] [] = Except.error "Vectors must have same length" ∧
    cosineSimilarity id [1, 0] [0, 2] =
      Except.ok (dotProduct [1, 0] [0, 2] / (id (sumSquares [1, 0]) * id (sumSquares [0, 2]))) := by
  have hsq : ∀ x : ℚ, 0 ≤ x → (id x = 0 ↔ x = 0) := fun x _ => Iff.rfl
  refine ⟨?_, ?_, ?_⟩
  · exact ((c4_cosineSimilarity id hsq [0] [3]).1 rfl).1
      (Or.inl (by norm_num [sumSquares]))
  · exact (c4_cosineSimilarity id hsq [1] []).2 (by norm_num)
  · exact ((c4_cosineSimilarity id hsq [1, 0] [0, 2]).1 rfl).2
      (by norm_num [sumSquares]) (by norm_num [sumSquares])

/-- C8: looking a path up with a trailing ".md" marker and without it resolves
to the same record (the marker is stripped during normalization), and looking
up a path whose normalized form keys no record returns none — the function is
total and cannot throw. -/
theorem c8_getDocByPath :
    (∀ (store : Store) (p : String), mdSuffix.isSuffixOf p.toList = false →
      getDocByPath store (p ++ ".md") = getDocByPath store p) ∧
    (∀ (store : Store) (p : String), (∀ kv ∈ store, kv.1 ≠ stripMd p) →
      getDocByPath store p = none) := by
  constructor
  · intro store p h
    unfold getDocByPath
    rw [stripMd_append_md, stripMd_of_not_md p h]
  · intro store p h
    unfold getDocByPath mapGet
    have : store.find? (fun kv => kv.1 == stripMd p) = none := by
      rw [List.find?_eq_none]
      intro kv hkv
      simpa using h kv hkv
    rw [this]
    rfl

/-- Witness for C8: on a one-record store, "learn/a.md" and "learn/a" resolve
identically, and the absent key "learn/b" yields none. -/
theorem c8_witness :
    getDocByPath w8store "learn/a.md" = getDocByPath w8store "learn/a" ∧
    getDocByPath w8store "learn/b" = none := by
  constructor
  · exact c8_getDocByPath.1 w8store "learn/a" (by decide)
  · exact c8_getDocByPath.2 w8store "learn/b" (by decide)

theorem hybridCandidates_mem_doc (sqrtQ : ℚ → ℚ) (qe : List ℚ) (qt : List String) :
    ∀ (docs : List ParsedDoc) (rs : List SearchResult),
      hybridCandidates sqrtQ qe qt docs = Except.ok rs → ∀ r ∈ rs, r.doc ∈ docs := by
  intro docs
  induction docs with
  | nil =>
    intro rs hrun r hr
    simp only [hybridCandidates] at hrun
    cases hrun
    cases hr
  | cons d rest ih =>
    intro rs hrun r hr
    simp only [hybridCandidates] at hrun
    cases hd : d.embedding with
    | none =>
      rw [hd] at hrun
      dsimp only at hrun
      exact List.mem_cons_of_mem d (ih rs hrun r hr)
    | some e =>
      rw [hd] at hrun
      simp only [bind, Except.bind] at hrun
      cases hk : scoreDocument d qt with
      | error msg => rw [hk] at hrun; dsimp only at hrun; cases hrun
      | ok kd =>
        cases hc : cosineSimilarity sqrtQ qe e with
        | error msg => rw [hk, hc] at hrun; dsimp only at hrun; cases hrun
        | ok sd =>
          cases hrest : hybridCandidates sqrtQ qe qt rest with
          | error msg => rw [hk, hc, hrest] at hrun; dsimp only at hrun; cases hrun
          | ok others =>
            rw [hk, hc, hrest] at hrun
            dsimp only at hrun
            by_cases hfloor : semanticMinSimilarity ≤ sd
            · rw [if_pos hfloor] at hrun
              obtain rfl := Except.ok.inj hrun
              rcases List.mem_cons.mp hr with hr2 | hr2
              · simp [hr2]
              · exact List.mem_cons_of_mem d (ih others hrest r hr2)
            · rw [if_neg hfloor] at hrun
              obtain rfl := Except.ok.inj hrun
              exact List.mem_cons_of_mem d (ih others hrest r hr)

/-- C1: in hybrid mode, for every candidate reaching the scoring loop with an
embedding, the combined score is keywordWeight × (keyword score / 100) +
semanticWeight × (cosine similarity of query and record embeddings), the
weights and floor being the configured 0.3, 0.7 and 0.3; and the record enters
the candidate result set built by the loop (before sorting and limit
truncation) if and only if its semantic component reaches the floor — its
keyword component plays no part in the admission test. -/
theorem c1_hybridScore (sqrtQ : ℚ → ℚ) (qe : List ℚ) (queryTerms : List String)
    (docs : List ParsedDoc) (rs : List SearchResult) (doc : ParsedDoc) (e : List ℚ) (k s : ℚ)
    (hrun : hybridCandidates sqrtQ qe queryTerms docs = Except.ok rs)
    (hmem : doc ∈ docs) (hemb : doc.embedding = some e)
    (hk : scoreDocument doc queryTerms = Except.ok k)
    (hcos : cosineSimilarity sqrtQ qe e = Except.ok s) :
    (hybridKeywordWeight = 3/10 ∧ hybridSemanticWeight = 7/10 ∧
      semanticMinSimilarity = 3/10) ∧
    (∀ r ∈ rs, r.doc = doc →
      r.score = hybridKeywordWeight * (k / 100) + hybridSemanticWeight * s) ∧
    ((∃ r ∈ rs, r.doc = doc) ↔ semanticMinSimilarity ≤ s) := by
  refine ⟨⟨rfl, rfl, rfl⟩, ?_⟩
  induction docs generalizing rs with
  | nil => cases hmem
  | cons d rest ih =>
    simp only [hybridCandidates] at hrun
    cases hd : d.embedding with
    | none =>
      rw [hd] at hrun
      dsimp only at hrun
      have hdoc : doc ∈ rest := by
        rcases List.mem_cons.mp hmem with h | h
        · subst h; rw [hd] at hemb; cases hemb
        · exact h
      exact ih rs hrun hdoc
    | some e2 =>
      rw [hd] at hrun
      simp only [bind, Except.bind] at hrun
      cases hk2 : scoreDocument d queryTerms with
      | error msg => rw [hk2] at hrun; dsimp only at hrun; cases hrun
      | ok kd =>
        cases hc2 : cosineSimilarity sqrtQ qe e2 with
        | error msg => rw [hk2, hc2] at hrun; dsimp only at hrun; cases hrun
        | ok sd =>
          cases hrest : hybridCandidates sqrtQ qe queryTerms rest with
          | error msg => rw [hk2, hc2, hrest] at hrun; dsimp only at hrun; cases hrun
          | ok others =>
            rw [hk2, hc2, hrest] at hrun
            dsimp only at hrun
            have hscore_d : d = doc → kd = k ∧ sd = s := by
              intro hdd
              subst hdd
              rw [hemb] at hd
              cases hd
              rw [hk] at hk2
              cases hk2
              rw [hcos] at hc2
              cases hc2
              exact ⟨rfl, rfl⟩
            by_cases hdocrest : doc ∈ rest
            · have ihres := ih others hrest hdocrest
              by_cases hfloor : semanticMinSimilarity ≤ sd
              · rw [if_pos hfloor] at hrun
                obtain rfl := Except.ok.inj hrun
                constructor
                · intro r hr hrd
                  rcases List.mem_cons.mp hr with h | h
                  · subst h
                    simp only at hrd
                    obtain ⟨hkk, hss⟩ := hscore_d hrd
                    simp [hkk, hss]
                  · exact ihres.1 r h hrd
                · constructor
                  · intro hex
                    obtain ⟨r, hr, hrd⟩ := hex
                    rcases List.mem_cons.mp hr with h | h
                    · subst h
                      simp only at hrd
                      obtain ⟨_, hss⟩ := hscore_d hrd
                      rw [← hss]
                      exact hfloor
                    · exact ihres.2.mp ⟨r, h, hrd⟩
                  · intro hfs
                    obtain ⟨r, hr, hrd⟩ := ihres.2.mpr hfs
                    exact ⟨r, List.mem_cons_of_mem _ hr, hrd⟩
              · rw [if_neg hfloor] at hrun
                obtain rfl := Except.ok.inj hrun
                exact ihres
            · have hdd : d = doc := by
                rcases List.mem_cons.mp hmem with h | h
                · exact h.symm
                · exact absurd h hdocrest
              obtain ⟨hkk, hss⟩ := hscore_d hdd
              have hnomem : ∀ r ∈ others, r.doc ≠ doc := by
                intro r hr hrd
                exact hdocrest (hrd ▸ hybridCandidates_mem_doc sqrtQ qe queryTerms rest others hrest r hr)
              by_cases hfloor : semanticMinSimilarity ≤ sd
              · rw [if_pos hfloor] at hrun
                obtain rfl := Except.ok.inj hrun
                constructor
                · intro r hr hrd
                  rcases List.mem_cons.mp hr with h | h
                  · subst h
                    simp [hkk, hss]
                  · exact absurd hrd (hnomem r h)
                · constructor
                  · intro _
                    rw [← hss]
                    exact hfloor
                  · intro _
                    refine ⟨_, List.mem_cons_self _ _, ?_⟩
                    simp [hdd]
              · rw [if_neg hfloor] at hrun
                obtain rfl := Except.ok.inj hrun
                constructor
                · intro r hr hrd
                  exact absurd hrd (hnomem r hr)
                · constructor
                  · intro hex
                    obtain ⟨r, hr, hrd⟩ := hex
                    exact absurd hrd (hnomem r hr)
                  · intro hfs
                    rw [← hss] at hfs
                    exact absurd hfs hfloor

/-- Witness for C1: a single candidate with embedding [1] against query
embedding [1] has similarity 1 ≥ 0.3 and is admitted with the weighted score. -/
theorem c1_witness :
    (∃ r ∈ [({ doc := w1doc, score := 7/10, snippet := "..." } : SearchResult)],
      r.doc = w1doc) ∧
    (∀ r ∈ [({ doc := w1doc, score := 7/10, snippet := "..." } : SearchResult)],
      r.doc = w1doc →
        r.score = hybridKeywordWeight * ((0:ℚ) / 100) + hybridSemanticWeight * 1) := by
  have hrun : hybridCandidates id [1] [] [w1doc] =
      Except.ok [{ doc := w1doc, score := 7/10, snippet := "..." }] := by
    simp [hybridCandidates, w1doc, scoreDocument, scoreTerms, cosineSimilarity,
      sumSquares, dotProduct, bind, Except.bind, generateSnippet, snippetMatch,
      lowerChars, semanticMinSimilarity, hybridKeywordWeight, hybridSemanticWeight,
      SearchResult.mk.injEq, ParsedDoc.mk.injEq]
    norm_num
  have hk : scoreDocument w1doc [] = Except.ok 0 := rfl
  have hcos : cosineSimilarity id [1] [1] = Except.ok 1 := by
    simp [cosineSimilarity, sumSquares, dotProduct]
  have h := c1_hybridScore id [1] [] [w1doc]
    [{ doc := w1doc, score := 7/10, snippet := "..." }] w1doc [1] 0 1
    hrun (List.mem_singleton.mpr rfl) rfl hk hcos
  exact ⟨h.2.2.mpr (by norm_num [semanticMinSimilarity]), h.2.1⟩

theorem parseRegex_lit (t : List Char) (h : ∀ c ∈ t, c ∉ regexMeta ∧ c ≠ '.') :
    parseRegex t = Except.ok (t.map RegexTok.lit) := by
  induction t with
  | nil => rfl
  | cons c cs ih =>
    have hc := h c (List.mem_cons_self c cs)
    have hrest : ∀ x ∈ cs, x ∉ regexMeta ∧ x ≠ '.' :=
      fun x hx => h x (List.mem_cons_of_mem c hx)
    simp [parseRegex, hc.1, hc.2, ih hrest, bind, Except.bind]

theorem toksMatchHere_lit (t : List Char) :
    ∀ s : List Char, toksMatchHere (t.map RegexTok.lit) s = t.isPrefixOf s := by
  induction t with
  | nil => intro s; simp [toksMatchHere, List.isPrefixOf]
  | cons c cs ih =>
    intro s
    cases s with
    | nil => simp [toksMatchHere, List.isPrefixOf]
    | cons d ds =>
      simp only [List.map_cons, toksMatchHere, List.isPrefixOf, tokMatch, ih ds]
      by_cases hcd : c = d <;> simp [hcd]

theorem countScan_lit (t : List Char) :
    ∀ (n : Nat) (s : List Char), s.length ≤ n →
      countScan (t.map RegexTok.lit) s = countLiteral t s := by
  intro n
  induction n with
  | zero =>
    intro s hs
    have : s = [] := List.length_eq_zero.mp (Nat.le_zero.mp hs)
    subst this
    simp [countScan, countLiteral]
  | succ m ih =>
    intro s hs
    cases s with
    | nil => simp [countScan, countLiteral]
    | cons c cs =>
      rw [countScan, countLiteral, toksMatchHere_lit t (c :: cs)]
      by_cases hpre : t.isPrefixOf (c :: cs)
      · rw [if_pos hpre, if_pos hpre, List.length_map]
        have hlen : (List.drop (t.length - 1) cs).length ≤ m := by
          have := List.length_drop (t.length - 1) cs
          simp only [List.length_cons] at hs
          omega
        rw [ih (List.drop (t.length - 1) cs) hlen]
      · rw [if_neg hpre, if_neg hpre]
        have hlen : cs.length ≤ m := by
          simp only [List.length_cons] at hs
          omega
        exact ih cs hlen

theorem wsSplit_mem_ne_nil :
    ∀ (cs acc : List Char) (t : List Char), t ∈ wsSplit acc cs → t ≠ [] := by
  intro cs
  induction cs with
  | nil =>
    intro acc t ht
    simp only [wsSplit] at ht
    by_cases hacc : acc = []
    · rw [if_pos hacc] at ht
      cases ht
    · rw [if_neg hacc] at ht
      rcases List.mem_singleton.mp ht with rfl
      simpa using hacc
  | cons c cs ih =>
    intro acc t ht
    simp only [wsSplit] at ht
    by_cases hws : c.isWhitespace
    · rw [if_pos hws] at ht
      by_cases hacc : acc = []
      · rw [if_pos hacc] at ht
        exact ih [] t ht
      · rw [if_neg hacc] at ht
        rcases List.mem_cons.mp ht with rfl | h
        · simpa using hacc
        · exact ih [] t h
    · rw [if_neg hws] at ht
      exact ih (c :: acc) t ht

theorem tokenize_mem_ne_nil (q : String) (t : String) (h : t ∈ tokenize q) :
    t.toList ≠ [] := by
  obtain ⟨l, hl, rfl⟩ := List.mem_map.mp h
  exact wsSplit_mem_ne_nil (lowerChars q) [] l hl

theorem scoreTerm_lit (tl pl ptl : List Char) (dl : Option (List Char))
    (term : List Char) (hne : term ≠ [])
    (hlit : ∀ c ∈ term, c ∉ regexMeta ∧ c ≠ '.') :
    scoreTerm tl pl ptl dl term = Except.ok (claimTermScore tl pl ptl dl term) := by
  rw [scoreTerm.eq_def]
  rw [parseRegex_lit term hlit]
  have hcount : countMatches (term.map RegexTok.lit) ptl = countLiteral term ptl := by
    cases term with
    | nil => exact absurd rfl hne
    | cons c cs =>
      simp only [List.map_cons, countMatches]
      exact countScan_lit (c :: cs) ptl.length ptl le_rfl
  simp only [bind, Except.bind, hcount, claimTermScore]
  congr 1
  cases dl with
  | none => push_cast; ring
  | some d => by_cases hd : listContains d term <;> simp only [hd, if_true, if_false] <;> ring

theorem scoreTerms_lit (tl pl ptl : List Char) (dl : Option (List Char))
    (terms : List String)
    (h : ∀ t ∈ terms, t.toList ≠ [] ∧ ∀ c ∈ t.toList, c ∉ regexMeta ∧ c ≠ '.') :
    scoreTerms tl pl ptl dl (terms.map String.toList) =
      Except.ok ((terms.map (fun term => claimTermScore tl pl ptl dl term.toList)).sum) := by
  induction terms with
  | nil => simp [scoreTerms]
  | cons t ts ih =>
    have hh := h t (List.mem_cons_self t ts)
    have hrest : ∀ u ∈ ts, u.toList ≠ [] ∧ ∀ c ∈ u.toList, c ∉ regexMeta ∧ c ≠ '.' :=
      fun u hu => h u (List.mem_cons_of_mem t hu)
    simp only [List.map_cons, scoreTerms, bind, Except.bind,
      scoreTerm_lit tl pl ptl dl t.toList hh.1 hh.2, ih hrest, List.sum_cons]

/-- C2 (amended): for every document and every query all of whose tokens stay
clear of the regex metacharacters — the dot wildcard and the characters of
`regexMeta` — the keyword score is the claimed sum: per term, 10 for a
case-insensitive title substring, 5 for a path substring, 3 for a description
substring, and 0.5 per occurrence of the term in the body, occurrences counted
by a left-to-right non-overlapping literal scan. (For tokens holding such
characters the body count follows regex matching instead — see the C9
theorem.) -/
theorem c2_keywordScore (doc : ParsedDoc) (query : String)
    (h : ∀ t ∈ tokenize query, ∀ c ∈ t.toList, c ∉ regexMeta ∧ c ≠ '.') :
    scoreDocument doc (tokenize query) =
      Except.ok (claimKeywordScore doc (tokenize query)) := by
  rw [scoreDocument, claimKeywordScore]
  exact scoreTerms_lit _ _ _ _ (tokenize query)
    (fun t ht => ⟨tokenize_mem_ne_nil query t ht, h t ht⟩)

/-- Witness for C2 at a concrete document and the query "ax b". -/
theorem c2_witness :
    scoreDocument c3doc (tokenize "ax b") =
      Except.ok (claimKeywordScore c3doc (tokenize "ax b")) :=
  c2_keywordScore c3doc "ax b" (by decide)

/-- Counterexample to C2 as stated: on a document whose body is "axc", the
query "a.c" is scored through the regex reading of its single term — the dot
matches the x — so the computed score differs from the claimed literal-count
formula, which finds no occurrence. -/
theorem c2_counterexample :
    scoreDocument c2doc (tokenize "a.c") ≠
      Except.ok (claimKeywordScore c2doc (tokenize "a.c")) := by
  have h1 : scoreDocument c2doc (tokenize "a.c") = Except.ok (1/2) := by
    simp [c2doc, scoreDocument, tokenize, wsSplit, lowerChars, scoreTerms, scoreTerm,
      parseRegex, regexMeta, countMatches, countScan, toksMatchHere, tokMatch,
      listContains, bind, Except.bind, lineTerminators]
  have h2 : claimKeywordScore c2doc (tokenize "a.c") = 0 := by
    simp [c2doc, claimKeywordScore, claimTermScore, tokenize, wsSplit, lowerChars,
      countLiteral, listContains, List.isPrefixOf]
  rw [h1, h2]
  intro hcontra
  have := Except.ok.inj hcontra
  norm_num at this

/-- C9: keyword scoring interprets each raw term as a regular-expression
pattern. The non-empty query "(" makes search throw the regex construction
error instead of returning a list; and on the term "a.c" against the body
"axc" the score follows regex matching (one match through the wildcard, half a
point) while the literal occurrence count is zero. -/
theorem c9_regexInterpretation :
    search id (fun _ => Except.ok []) [c9doc] "(" ⟨none, none, none, some false⟩ =
      Except.error "Invalid regular expression" ∧
    scoreDocument c9doc2 (tokenize "a.c") = Except.ok (1/2) ∧
    countLiteral "a.c".toList (lowerChars c9doc2.plainText) = 0 := by
  refine ⟨?_, ?_, by simp [c9doc2, countLiteral, List.isPrefixOf, lowerChars]⟩
  · simp [search, trimStr, trimChars, keywordSearch, scoreCandidates, sectionSkip,
      c9doc, tokenize, wsSplit, lowerChars, scoreDocument, scoreTerms, scoreTerm,
      parseRegex, regexMeta, bind, Except.bind, semanticSearchEnabled]
  · simp [c9doc2, scoreDocument, tokenize, wsSplit, lowerChars, scoreTerms, scoreTerm,
      parseRegex, regexMeta, countMatches, countScan, toksMatchHere, tokMatch,
      listContains, bind, Except.bind, lineTerminators]

theorem scoreCandidates_length (qt : List String) (ms : ℚ) (sf : Option String) :
    ∀ (docs : List ParsedDoc) (rs : List SearchResult),
      scoreCandidates qt ms sf docs = Except.ok rs →
      rs.length = (docs.filter (keywordQualifies qt ms sf)).length := by
  intro docs
  induction docs with
  | nil =>
    intro rs hrun
    obtain rfl := Except.ok.inj hrun
    rfl
  | cons d rest ih =>
    intro rs hrun
    simp only [scoreCandidates] at hrun
    by_cases hskip : sectionSkip sf d
    · rw [if_pos hskip] at hrun
      have hq : keywordQualifies qt ms sf d = false := by
        simp [keywordQualifies, hskip]
      simp only [List.filter_cons, hq, Bool.false_eq_true, if_false]
      exact ih rs hrun
    · rw [if_neg hskip] at hrun
      simp only [bind, Except.bind] at hrun
      cases hsc : scoreDocument d qt with
      | error msg => rw [hsc] at hrun; dsimp only at hrun; cases hrun
      | ok sc =>
        cases hrest : scoreCandidates qt ms sf rest with
        | error msg => rw [hsc, hrest] at hrun; dsimp only at hrun; cases hrun
        | ok others =>
          rw [hsc, hrest] at hrun
          dsimp only at hrun
          by_cases hmin : ms ≤ sc
          · rw [if_pos hmin] at hrun
            obtain rfl := Except.ok.inj hrun
            have hq : keywordQualifies qt ms sf d = true := by
              simp [keywordQualifies, hskip, hsc, hmin]
            simp only [List.filter_cons, hq, if_true, List.length_cons]
            rw [ih others hrest]
          · rw [if_neg hmin] at hrun
            obtain rfl := Except.ok.inj hrun
            have hq : keywordQualifies qt ms sf d = false := by
              simp [keywordQualifies, hskip, hsc, hmin]
            simp only [List.filter_cons, hq, Bool.false_eq_true, if_false]
            exact ih _ hrest

theorem hybridCandidates_length (sqrtQ : ℚ → ℚ) (qe : List ℚ) (qt : List String) :
    ∀ (docs : List ParsedDoc) (rs : List SearchResult),
      hybridCandidates sqrtQ qe qt docs = Except.ok rs →
      rs.length = (docs.filter (hybridQualifies sqrtQ qe qt)).length := by
  intro docs
  induction docs with
  | nil =>
    intro rs hrun
    obtain rfl := Except.ok.inj hrun
    rfl
  | cons d rest ih =>
    intro rs hrun
    simp only [hybridCandidates] at hrun
    cases hd : d.embedding with
    | none =>
      rw [hd] at hrun
      dsimp only at hrun
      have hq : hybridQualifies sqrtQ qe qt d = false := by
        simp [hybridQualifies, hd]
      simp only [List.filter_cons, hq, Bool.false_eq_true, if_false]
      exact ih rs hrun
    | some e =>
      rw [hd] at hrun
      simp only [bind, Except.bind] at hrun
      cases hk : scoreDocument d qt with
      | error msg => rw [hk] at hrun; dsimp only at hrun; cases hrun
      | ok kd =>
        cases hc : cosineSimilarity sqrtQ qe e with
        | error msg => rw [hk, hc] at hrun; dsimp only at hrun; cases hrun
        | ok sd =>
          cases hrest : hybridCandidates sqrtQ qe qt rest with
          | error msg => rw [hk, hc, hrest] at hrun; dsimp only at hrun; cases hrun
          | ok others =>
            rw [hk, hc, hrest] at hrun
            dsimp only at hrun
            by_cases hfloor : semanticMinSimilarity ≤ sd
            · rw [if_pos hfloor] at hrun
              obtain rfl := Except.ok.inj hrun
              have hq : hybridQualifies sqrtQ qe qt d = true := by
                simp [hybridQualifies, hd, hk, hc, hfloor]
              simp only [List.filter_cons, hq, if_true, List.length_cons]
              rw [ih others hrest]
            · rw [if_neg hfloor] at hrun
              obtain rfl := Except.ok.inj hrun
              have hq : hybridQualifies sqrtQ qe qt d = false := by
                simp [hybridQualifies, hd, hk, hc, hfloor]
              simp only [List.filter_cons, hq, Bool.false_eq_true, if_false]
              exact ih _ hrest

theorem sortResults_length (rs : List SearchResult) :
    (sortResults rs).length = rs.length :=
  List.length_mergeSort rs

theorem sortResults_sorted (rs : List SearchResult) :
    List.Pairwise (fun a b : SearchResult => b.score ≤ a.score) (sortResults rs) := by
  have h := @List.sorted_mergeSort SearchResult
    (fun a b : SearchResult => decide (b.score ≤ a.score))
    (fun a b c hab hbc => by
      simp only [decide_eq_true_eq] at *
      exact le_trans hbc hab)
    (fun a b => by
      simp only [Bool.or_eq_true, decide_eq_true_eq]
      exact le_total b.score a.score) rs
  exact h.imp (by simp)

theorem orDefault_getD (x : Option Nat) (d : Nat) (h : ∀ l, x = some l → 1 ≤ l) :
    orDefault x d = x.getD d := by
  cases x with
  | none => rfl
  | some l =>
    have := h l rfl
    simp [orDefault, Option.getD]
    omega

/-- C3 (amended): for every query and every requested limit that is at least 1
(a requested limit of 0 is falsy in JS and falls back to the default 10 — see
the counterexample), both search modes return at most
min(requested limit, hard ceiling 50) results — the default standing in when
no limit is requested — at most as many results as there are qualifying
documents, and the returned sequence is sorted by score in non-increasing
order. -/
theorem c3_resultBounds (docs : List ParsedDoc) (query : String) (options : SearchOptions)
    (hlim : ∀ l, options.limit = some l → 1 ≤ l) :
    (∀ rs, keywordSearch docs query options = Except.ok rs →
      rs.length ≤ min (options.limit.getD defaultLimit) maxLimit ∧
      rs.length ≤ (docs.filter (keywordQualifies (tokenize query)
        (options.minScore.getD minScoreDefault) (options.sectionOpt.map lowerString))).length ∧
      List.Pairwise (fun a b : SearchResult => b.score ≤ a.score) rs) ∧
    (∀ (sqrtQ : ℚ → ℚ) (embedQ : String → Except String (List ℚ)) (qe : List ℚ) rs,
      semanticSearch sqrtQ embedQ docs query options = Except.ok rs →
      embedQ query = Except.ok qe →
      rs.length ≤ min (options.limit.getD defaultLimit) maxLimit ∧
      rs.length ≤ (docs.filter (semQualifies sqrtQ qe query options)).length ∧
      List.Pairwise (fun a b : SearchResult => b.score ≤ a.score) rs) := by
  constructor
  · intro rs hrun
    simp only [keywordSearch, bind, Except.bind] at hrun
    cases hc : scoreCandidates (tokenize query) (options.minScore.getD minScoreDefault)
        (options.sectionOpt.map lowerString) docs with
    | error msg => rw [hc] at hrun; dsimp only at hrun; cases hrun
    | ok cands =>
      rw [hc] at hrun
      dsimp only at hrun
      obtain rfl := Except.ok.inj hrun
      have hlen := scoreCandidates_length _ _ _ docs cands hc
      have hlim2 := orDefault_getD options.limit defaultLimit hlim
      refine ⟨?_, ?_, ?_⟩
      · calc (List.take (min (orDefault options.limit defaultLimit) maxLimit)
                (sortResults cands)).length
            ≤ min (orDefault options.limit defaultLimit) maxLimit := by
              rw [List.length_take]
              exact min_le_left _ _
          _ = min (options.limit.getD defaultLimit) maxLimit := by rw [hlim2]
      · calc (List.take (min (orDefault options.limit defaultLimit) maxLimit)
                (sortResults cands)).length
            ≤ (sortResults cands).length := by
              rw [List.length_take]
              exact min_le_right _ _
          _ = cands.length := sortResults_length cands
          _ = _ := hlen
      · exact (sortResults_sorted cands).sublist (List.take_sublist _ _)
  · intro sqrtQ embedQ qe rs hrun hq
    simp only [semanticSearch, bind, Except.bind] at hrun
    rw [hq] at hrun
    dsimp only at hrun
    cases hc : hybridCandidates sqrtQ qe (tokenize query)
        (docs.filter (fun doc =>
          !(sectionSkip (options.sectionOpt.map lowerString) doc) && doc.embedding.isSome)) with
    | error msg => rw [hc] at hrun; dsimp only at hrun; cases hrun
    | ok cands =>
      rw [hc] at hrun
      dsimp only at hrun
      obtain rfl := Except.ok.inj hrun
      have hlen := hybridCandidates_length sqrtQ qe (tokenize query) _ cands hc
      have hfilter : ((docs.filter (fun doc =>
            !(sectionSkip (options.sectionOpt.map lowerString) doc) && doc.embedding.isSome)).filter
          (hybridQualifies sqrtQ qe (tokenize query))).length =
          (docs.filter (semQualifies sqrtQ qe query options)).length := by
        rw [List.filter_filter]
        refine congrArg List.length (List.filter_congr ?_)
        intro x _
        cases hx : x.embedding with
        | none =>
          have hq : hybridQualifies sqrtQ qe (tokenize query) x = false := by
            simp [hybridQualifies, hx]
          simp [semQualifies, hq]
        | some e =>
          simp [semQualifies, hx]
      have hlim2 := orDefault_getD options.limit defaultLimit hlim
      refine ⟨?_, ?_, ?_⟩
      · calc (List.take (min (orDefault options.limit defaultLimit) maxLimit)
                (sortResults cands)).length
            ≤ min (orDefault options.limit defaultLimit) maxLimit := by
              rw [List.length_take]
              exact min_le_left _ _
          _ = min (options.limit.getD defaultLimit) maxLimit := by rw [hlim2]
      · calc (List.take (min (orDefault options.limit defaultLimit) maxLimit)
                (sortResults cands)).length
            ≤ (sortResults cands).length := by
              rw [List.length_take]
              exact min_le_right _ _
          _ = cands.length := sortResults_length cands
          _ = _ := hlen
          _ = _ := hfilter
      · exact (sortResults_sorted cands).sublist (List.take_sublist _ _)

/-- Witness for C3 at a one-document store and the query "x" with no options
set: the single returned result respects both bounds and is sorted. -/
theorem c3_witness :
    [({ doc := c3doc, score := 31/2, snippet := "x" } : SearchResult)].length ≤
      min ((none : Option Nat).getD defaultLimit) maxLimit ∧
    [({ doc := c3doc, score := 31/2, snippet := "x" } : SearchResult)].length ≤
      ([c3doc].filter (keywordQualifies (tokenize "x")
        ((none : Option ℚ).getD minScoreDefault) ((none : Option String).map lowerString))).length ∧
    List.Pairwise (fun a b : SearchResult => b.score ≤ a.score)
      [({ doc := c3doc, score := 31/2, snippet := "x" } : SearchResult)] := by
  have heval : keywordSearch [c3doc] "x" ⟨none, none, none, none⟩ =
      Except.ok [{ doc := c3doc, score := 31/2, snippet := "x" }] := by
    simp [c3doc, keywordSearch, scoreCandidates, sectionSkip, tokenize, wsSplit, lowerChars,
      scoreDocument, scoreTerms, scoreTerm, parseRegex, regexMeta, countMatches, countScan,
      toksMatchHere, tokMatch, listContains, bind, Except.bind, minScoreDefault,
      generateSnippet, snippetMatch, snippetStep, firstIdx, trimStr, trimChars,
      sortResults, List.mergeSort_singleton, orDefault, defaultLimit, maxLimit,
      SearchResult.mk.injEq, ParsedDoc.mk.injEq]
    norm_num
  exact (c3_resultBounds [c3doc] "x" ⟨none, none, none, none⟩
    (fun l h => by cases h)).1 _ heval

/-- Counterexample to C3 as stated: with the requested limit 0 and one
qualifying document, keyword search still returns one result — `0 ||
defaultLimit` is 10 in JS — exceeding min(requested limit, ceiling) = 0. -/
theorem c3_counterexample :
    (keywordSearch [c3doc] "x" ⟨none, some 0, none, none⟩).map List.length =
      Except.ok 1 ∧ ¬ (1 ≤ min 0 maxLimit) := by
  constructor
  · simp [c3doc, keywordSearch, scoreCandidates, sectionSkip, tokenize, wsSplit, lowerChars,
      scoreDocument, scoreTerms, scoreTerm, parseRegex, regexMeta, countMatches, countScan,
      toksMatchHere, tokMatch, listContains, bind, Except.bind, minScoreDefault,
      generateSnippet, snippetMatch, snippetStep, firstIdx, trimStr, trimChars,
      sortResults, List.mergeSort_singleton, orDefault, defaultLimit, maxLimit, Except.map]
    norm_num
  · simp [maxLimit]

theorem indexLoop_fail_middle (readDoc : String → Except String String)
    (parseMd : String → String → Except String ParsedDoc) (p : String)
    (hfail : ∃ e, (do
      let content ← readDoc p
      parseMd content p : Except String ParsedDoc) = Except.error e) :
    ∀ (pre post : List String) (acc : Store),
      (indexLoop readDoc parseMd (pre ++ p :: post) acc).1 =
        (indexLoop readDoc parseMd (pre ++ post) acc).1 ∧
      ("Failed to index document " ++ p) ∈
        (indexLoop readDoc parseMd (pre ++ p :: post) acc).2 := by
  intro pre
  induction pre with
  | nil =>
    intro post acc
    obtain ⟨e, he⟩ := hfail
    simp only [List.nil_append, indexLoop, he]
    exact ⟨trivial, List.mem_cons_self _ _⟩
  | cons q pre ih =>
    intro post acc
    simp only [List.cons_append, indexLoop]
    cases hq : (do
      let content ← readDoc q
      parseMd content q : Except String ParsedDoc) with
    | error msg =>
      refine ⟨(ih post acc).1, ?_⟩
      exact List.mem_cons_of_mem _ (ih post acc).2
    | ok doc =>
      exact ih post (mapSet acc doc.path doc)

theorem indexLoop_all_ok (readDoc : String → Except String String)
    (parseMd : String → String → Except String ParsedDoc) (f : String → ParsedDoc) :
    ∀ (docs : List String) (acc : Store),
      (∀ q ∈ docs, (do
        let content ← readDoc q
        parseMd content q : Except String ParsedDoc) = Except.ok (f q)) →
      indexLoop readDoc parseMd docs acc =
        (docs.foldl (fun a q => mapSet a (f q).path (f q)) acc, []) := by
  intro docs
  induction docs with
  | nil => intro acc _; rfl
  | cons q rest ih =>
    intro acc h
    have hq := h q (List.mem_cons_self q rest)
    simp only [indexLoop, hq, List.foldl_cons]
    exact ih (mapSet acc (f q).path (f q)) (fun u hu => h u (List.mem_cons_of_mem q hu))

/-- C6: a rebuild clears all prior indexed state — the result is independent of
the previous store, a full replace; when fetching or parsing a single listed
document fails, that document is skipped, a warning naming it is recorded, and
the resulting store is the one the remaining documents alone would have built;
when every fetch and parse succeeds, every parsed record is inserted keyed by
its parsed path, in listing order, with no warnings. -/
theorem c6_indexDocuments :
    (∀ readDoc parseMd allDocs (s₁ s₂ : Store),
      indexDocuments readDoc parseMd allDocs s₁ = indexDocuments readDoc parseMd allDocs s₂) ∧
    (∀ readDoc parseMd (p : String) (pre post : List String) (old : Store),
      (∃ e, (do
        let content ← readDoc p
        parseMd content p : Except String ParsedDoc) = Except.error e) →
      (indexDocuments readDoc parseMd (pre ++ p :: post) old).1 =
        (indexDocuments readDoc parseMd (pre ++ post) old).1 ∧
      ("Failed to index document " ++ p) ∈
        (indexDocuments readDoc parseMd (pre ++ p :: post) old).2) ∧
    (∀ readDoc parseMd allDocs (old : Store) (f : String → ParsedDoc),
      (∀ q ∈ allDocs, (do
        let content ← readDoc q
        parseMd content q : Except String ParsedDoc) = Except.ok (f q)) →
      indexDocuments readDoc parseMd allDocs old =
        (allDocs.foldl (fun a q => mapSet a (f q).path (f q)) [], [])) := by
  refine ⟨fun _ _ _ _ _ => rfl, ?_, ?_⟩
  · intro readDoc parseMd p pre post old hfail
    exact indexLoop_fail_middle readDoc parseMd p hfail pre post []
  · intro readDoc parseMd allDocs old f h
    exact indexLoop_all_ok readDoc parseMd f allDocs [] h

/-- Witness for C6: with the listing ["learn/g", "bad", "learn/h"] and a reader
failing on "bad", the built store equals the one built from
["learn/g", "learn/h"], the warning names "bad", and the all-success listing
["learn/g"] builds exactly its parsed record with no warnings. -/
theorem c6_witness :
    (indexDocuments w6read w6parse ["learn/g", "bad", "learn/h"] []).1 =
      (indexDocuments w6read w6parse ["learn/g", "learn/h"] []).1 ∧
    ("Failed to index document " ++ "bad") ∈
      (indexDocuments w6read w6parse ["learn/g", "bad", "learn/h"] []).2 ∧
    indexDocuments w6read w6parse ["learn/g"] [] =
      ([("learn/g", w6f "learn/g")], []) := by
  have hfail : ∃ e, (do
      let content ← w6read "bad"
      w6parse content "bad" : Except String ParsedDoc) = Except.error e := by
    refine ⟨"io", ?_⟩
    simp [w6read, w6parse, bind, Except.bind]
  have h := c6_indexDocuments.2.1 w6read w6parse "bad" ["learn/g"] ["learn/h"] [] hfail
  have hok := c6_indexDocuments.2.2 w6read w6parse ["learn/g"] [] w6f
    (by
      intro q hq
      rcases List.mem_singleton.mp hq with rfl
      simp [w6read, w6parse, w6f, bind, Except.bind])
  refine ⟨h.1, h.2, ?_⟩
  rw [hok]
  simp [mapSet, w6f]

theorem embedLoop_all_ok (embed : String → Except String (List ℚ)) (ev : ParsedDoc → List ℚ) :
    ∀ idx : Store, (∀ kv ∈ idx, embed (embedText kv.2) = Except.ok (ev kv.2)) →
      embedLoop embed idx =
        (idx.map (fun kv => (kv.1, withEmbedding kv.2 (ev kv.2))),
         idx.map (fun kv => embedText kv.2), none) := by
  intro idx
  induction idx with
  | nil => intro _; rfl
  | cons kv rest ih =>
    intro h
    obtain ⟨k, doc⟩ := kv
    have hk := h (k, doc) (List.mem_cons_self _ _)
    simp only at hk
    simp only [embedLoop, hk, List.map_cons]
    rw [ih (fun u hu => h u (List.mem_cons_of_mem _ hu))]

theorem embedLoop_fail (embed : String → Except String (List ℚ)) (ev : ParsedDoc → List ℚ)
    (k : String) (bad : ParsedDoc) (e : String)
    (hbad : embed (embedText bad) = Except.error e) :
    ∀ (pre : List (String × ParsedDoc)) (post : Store),
      (∀ kv ∈ pre, embed (embedText kv.2) = Except.ok (ev kv.2)) →
      embedLoop embed (pre ++ (k, bad) :: post) =
        (pre.map (fun kv => (kv.1, withEmbedding kv.2 (ev kv.2))) ++ (k, bad) :: post,
         pre.map (fun kv => embedText kv.2) ++ [embedText bad], some e) := by
  intro pre
  induction pre with
  | nil =>
    intro post _
    simp only [List.nil_append, embedLoop, hbad, List.map_nil]
  | cons kv rest ih =>
    intro post h
    obtain ⟨k2, doc⟩ := kv
    have hk := h (k2, doc) (List.mem_cons_self _ _)
    simp only at hk
    simp only [List.cons_append, embedLoop, hk, List.map_cons, List.append_eq]
    rw [ih post (fun u hu => h u (List.mem_cons_of_mem _ hu))]

/-- C5 (amended): re-invoking embedding generation after a completed pass is a
no-op — the state is unchanged and the provider is never called; when the flag
is clear, the pass computes and attaches an embedding to every record of the
index, including records that already carry one (not only to records lacking
one — see the counterexample); and a provider failure on any single document
aborts the pass, surfaces that error, leaves the records embedded so far
embedded and the rest untouched, and keeps the completion flag clear. -/
theorem c5_generateEmbeddings :
    (∀ init embed (st : EngineState), st.embeddingsGenerated = true →
      generateEmbeddings init embed st = (st, [], none)) ∧
    (∀ init embed (st : EngineState) (ev : ParsedDoc → List ℚ),
      st.embeddingsGenerated = false → init = Except.ok () →
      (∀ kv ∈ st.index, embed (embedText kv.2) = Except.ok (ev kv.2)) →
      generateEmbeddings init embed st =
        ({ index := st.index.map (fun kv => (kv.1, withEmbedding kv.2 (ev kv.2))),
           embeddingsGenerated := true },
         st.index.map (fun kv => embedText kv.2), none)) ∧
    (∀ init embed (st : EngineState) (ev : ParsedDoc → List ℚ)
        (pre : List (String × ParsedDoc)) (k : String) (bad : ParsedDoc) (post : Store)
        (e : String),
      st.embeddingsGenerated = false → init = Except.ok () →
      st.index = pre ++ (k, bad) :: post →
      (∀ kv ∈ pre, embed (embedText kv.2) = Except.ok (ev kv.2)) →
      embed (embedText bad) = Except.error e →
      generateEmbeddings init embed st =
        ({ index := pre.map (fun kv => (kv.1, withEmbedding kv.2 (ev kv.2))) ++ (k, bad) :: post,
           embeddingsGenerated := false },
         pre.map (fun kv => embedText kv.2) ++ [embedText bad], some e)) := by
  refine ⟨?_, ?_, ?_⟩
  · intro init embed st hflag
    simp [generateEmbeddings, hflag]
  · intro init embed st ev hflag hinit h
    subst hinit
    simp only [generateEmbeddings, hflag, Bool.false_eq_true, if_false]
    rw [embedLoop_all_ok embed ev st.index h]
  · intro init embed st ev pre k bad post e hflag hinit hidx hpre hbad
    subst hinit
    simp only [generateEmbeddings, hflag, Bool.false_eq_true, if_false]
    rw [hidx, embedLoop_fail embed ev k bad e hbad pre post hpre]

/-- Witness for C5: the no-op on a completed state, and a failing pass over
[w5doc1, w5doc2] that embeds the first record, reports the provider error, and
leaves the flag clear. -/
theorem c5_witness :
    generateEmbeddings (Except.ok ()) w5embed ⟨[("a", w5doc1)], true⟩ =
      (⟨[("a", w5doc1)], true⟩, [], none) ∧
    generateEmbeddings (Except.ok ()) w5embed
        ⟨[("a", w5doc1), ("b", w5doc2)], false⟩ =
      (⟨[("a", withEmbedding w5doc1 [5]), ("b", w5doc2)], false⟩,
       [embedText w5doc1, embedText w5doc2], some "boom") := by
  constructor
  · exact c5_generateEmbeddings.1 (Except.ok ()) w5embed ⟨[("a", w5doc1)], true⟩ rfl
  · have h := c5_generateEmbeddings.2.2 (Except.ok ()) w5embed
      ⟨[("a", w5doc1), ("b", w5doc2)], false⟩ (fun _ => [5])
      [("a", w5doc1)] "b" w5doc2 [] "boom" rfl rfl rfl
      (by
        intro kv hkv
        rcases List.mem_singleton.mp hkv with rfl
        simp [w5embed, w5doc1, w5doc2, embedText])
      (by simp [w5embed])
    rw [h]
    rfl

/-- Counterexample to C5 as stated: on a state whose single record already
carries the embedding [1] while the completion flag is clear, the pass calls
the provider for that record and overwrites its embedding with the freshly
computed [2] — the operation does not attach embeddings only to records
lacking one. -/
theorem c5_counterexample :
    c5doc.embedding = some [1] ∧
    generateEmbeddings (Except.ok ()) c5embed c5state =
      (⟨[("p", withEmbedding c5doc [2])], true⟩, [embedText c5doc], none) ∧
    (withEmbedding c5doc [2]).embedding ≠ c5doc.embedding := by
  refine ⟨rfl, ?_, ?_⟩
  · rfl
  · simp only [withEmbedding, c5doc, ne_eq, Option.some.injEq]
    intro hcontra
    have : (2 : ℚ) = 1 := by
      have := List.cons.inj hcontra
      exact this.1
    norm_num at this

theorem snippetStep_merge (lpt : List Char) (acc : Option (Nat × Nat)) (t : String) :
    snippetStep lpt acc t = mergeOpt acc (snippetStep lpt none t) := by
  unfold snippetStep
  cases firstIdx lpt t.toList with
  | none =>
    cases acc with
    | none => rfl
    | some p => obtain ⟨j, l⟩ := p; rfl
  | some i =>
    cases acc with
    | none => rfl
    | some p => obtain ⟨j, l⟩ := p; rfl

theorem mergeOpt_none_right (x : Option (Nat × Nat)) : mergeOpt x none = x := by
  cases x with
  | none => rfl
  | some p => obtain ⟨j, l⟩ := p; rfl

theorem mergeOpt_some_some (j l i m : Nat) :
    mergeOpt (some (j, l)) (some (i, m)) = if i < j then some (i, m) else some (j, l) := rfl

theorem mergeOpt_assoc (a b c : Option (Nat × Nat)) :
    mergeOpt (mergeOpt a b) c = mergeOpt a (mergeOpt b c) := by
  cases a with
  | none => simp [mergeOpt]
  | some pa =>
    obtain ⟨j, l⟩ := pa
    cases b with
    | none =>
      cases c with
      | none => rfl
      | some pc => obtain ⟨i, m⟩ := pc; rfl
    | some pb =>
      obtain ⟨i, m⟩ := pb
      cases c with
      | none => rw [mergeOpt_none_right, mergeOpt_none_right]
      | some pc =>
        obtain ⟨h, n⟩ := pc
        rw [mergeOpt_some_some j l i m, mergeOpt_some_some i m h n]
        by_cases h1 : i < j <;> by_cases h2 : h < i
        · rw [if_pos h1, if_pos h2, mergeOpt_some_some i m h n, if_pos h2,
            mergeOpt_some_some j l h n, if_pos (by omega : h < j)]
        · rw [if_pos h1, if_neg h2, mergeOpt_some_some i m h n, if_neg h2,
            mergeOpt_some_some j l i m, if_pos h1]
        · rw [if_neg h1, if_pos h2, mergeOpt_some_some j l h n]
        · rw [if_neg h1, if_neg h2, mergeOpt_some_some j l h n,
            mergeOpt_some_some j l i m, if_neg h1, if_neg (by omega : ¬ h < j)]

theorem foldl_snippetStep (lpt : List Char) :
    ∀ (ts : List String) (acc : Option (Nat × Nat)),
      ts.foldl (snippetStep lpt) acc = mergeOpt acc (ts.foldl (snippetStep lpt) none) := by
  intro ts
  induction ts with
  | nil => intro acc; cases acc <;> rfl
  | cons t ts ih =>
    intro acc
    calc (t :: ts).foldl (snippetStep lpt) acc
        = ts.foldl (snippetStep lpt) (snippetStep lpt acc t) := rfl
      _ = mergeOpt (snippetStep lpt acc t) (ts.foldl (snippetStep lpt) none) := ih _
      _ = mergeOpt (mergeOpt acc (snippetStep lpt none t)) (ts.foldl (snippetStep lpt) none) := by
          rw [snippetStep_merge]
      _ = mergeOpt acc (mergeOpt (snippetStep lpt none t) (ts.foldl (snippetStep lpt) none)) :=
          mergeOpt_assoc _ _ _
      _ = mergeOpt acc (ts.foldl (snippetStep lpt) (snippetStep lpt none t)) := by rw [← ih]
      _ = mergeOpt acc ((t :: ts).foldl (snippetStep lpt) none) := rfl

theorem claimEarliest_find_isSome (lpt : List Char) :
    ∀ (ts : List String) (i : Nat), claimEarliest lpt ts = some i →
      (ts.find? (fun t => firstIdx lpt t.toList == some i)).isSome := by
  intro ts
  induction ts with
  | nil => intro i h; cases h
  | cons t ts ih =>
    intro i h
    simp only [claimEarliest] at h
    rw [List.find?_cons]
    cases hf : firstIdx lpt t.toList with
    | none =>
      rw [hf] at h
      dsimp only at h
      exact ih i h
    | some a =>
      rw [hf] at h
      cases hce : claimEarliest lpt ts with
      | none =>
        rw [hce] at h
        dsimp only at h
        obtain rfl := Option.some.inj h
        rw [show ((some a : Option Nat) == some a) = true by simp]
        rfl
      | some j =>
        rw [hce] at h
        dsimp only at h
        obtain rfl := Option.some.inj h
        by_cases haj : a ≤ j
        · rw [Nat.min_eq_left haj,
            show ((some a : Option Nat) == some a) = true by simp]
          rfl
        · have hja : j < a := Nat.lt_of_not_le haj
          rw [Nat.min_eq_right (Nat.le_of_lt hja),
            show ((some a : Option Nat) == some j) = false by
              simp only [beq_eq_false_iff_ne, ne_eq, Option.some.injEq]
              omega]
          exact ih j hce

theorem snippetMatch_spec (lpt : List Char) :
    ∀ ts : List String,
      snippetMatch lpt ts =
        match claimEarliest lpt ts with
        | none => none
        | some i =>
          match ts.find? (fun t => firstIdx lpt t.toList == some i) with
          | some u => some (i, u.toList.length)
          | none => none := by
  intro ts
  induction ts with
  | nil => rfl
  | cons t ts ih =>
    have hstep : snippetMatch lpt (t :: ts) =
        mergeOpt (snippetStep lpt none t) (snippetMatch lpt ts) := by
      unfold snippetMatch
      calc (t :: ts).foldl (snippetStep lpt) none
          = ts.foldl (snippetStep lpt) (snippetStep lpt none t) := rfl
        _ = mergeOpt (snippetStep lpt none t) (ts.foldl (snippetStep lpt) none) :=
            foldl_snippetStep lpt ts _
    rw [hstep, ih]
    cases hf : firstIdx lpt t.toList with
    | none =>
      have hstep0 : snippetStep lpt none t = none := by
        unfold snippetStep
        rw [hf]
      rw [hstep0]
      simp only [claimEarliest, hf]
      cases hce : claimEarliest lpt ts with
      | none => rfl
      | some i =>
        dsimp only
        rw [List.find?_cons, hf]
        cases ts.find? (fun u => firstIdx lpt u.toList == some i) <;> rfl
    | some a =>
      have hstep0 : snippetStep lpt none t = some (a, t.toList.length) := by
        unfold snippetStep
        rw [hf]
      rw [hstep0]
      simp only [claimEarliest, hf]
      cases hce : claimEarliest lpt ts with
      | none =>
        dsimp only
        rw [List.find?_cons, hf,
          show ((some a : Option Nat) == some a) = true by simp]
        rfl
      | some j =>
        dsimp only
        obtain ⟨u, hu⟩ := Option.isSome_iff_exists.mp (claimEarliest_find_isSome lpt ts j hce)
        by_cases haj : a ≤ j
        · rw [Nat.min_eq_left haj, List.find?_cons, hf,
            show ((some a : Option Nat) == some a) = true by simp]
          rw [hu, mergeOpt_some_some a t.toList.length j u.toList.length,
            if_neg (by omega : ¬ j < a)]
        · have hja : j < a := Nat.lt_of_not_le haj
          rw [Nat.min_eq_right (Nat.le_of_lt hja), List.find?_cons, hf,
            show ((some a : Option Nat) == some j) = false by
              simp only [beq_eq_false_iff_ne, ne_eq, Option.some.injEq]
              omega]
          rw [hu, mergeOpt_some_some a t.toList.length j u.toList.length,
            if_pos hja]

theorem claimEarliest_perm (lpt : List Char) :
    ∀ {ts1 ts2 : List String}, ts1.Perm ts2 →
      claimEarliest lpt ts1 = claimEarliest lpt ts2 := by
  intro ts1 ts2 h
  induction h with
  | nil => rfl
  | cons t _ ih => simp only [claimEarliest, ih]
  | swap a b l =>
    simp only [claimEarliest]
    cases hfa : firstIdx lpt a.toList <;> cases hfb : firstIdx lpt b.toList <;>
      cases hce : claimEarliest lpt l <;>
      dsimp only <;>
      first
        | rfl
        | (rw [Nat.min_left_comm]; done)
        | (rw [Nat.min_comm]; done)
  | trans _ _ ih1 ih2 => rw [ih1, ih2]

/-- C7 (amended): for every record and non-empty term list the snippet equals
the claimed construction — built around the earliest body position at which
any term occurs case-insensitively (the minimum over terms, independent of
term order), a window of 75 characters each side of the occurrence of the
matched term (the first term in the list whose earliest occurrence is at that
position), clamped to the body, prefixed with an ellipsis marker iff the
window starts after position 0, suffixed iff it stops before the end of the
body, and trimmed of surrounding whitespace; with no match anywhere in the
body, the description of the record when that is present and non-empty, otherwise
the first 150 characters of the body followed by an ellipsis marker. -/
theorem c7_generateSnippet (doc : ParsedDoc) (queryTerms : List String)
    (hne : queryTerms ≠ []) :
    generateSnippet doc queryTerms = claimSnippet doc queryTerms ∧
    (∀ ts1 ts2 : List String, ts1.Perm ts2 →
      claimEarliest (lowerChars doc.plainText) ts1 =
        claimEarliest (lowerChars doc.plainText) ts2) := by
  refine ⟨?_, fun ts1 ts2 h => claimEarliest_perm (lowerChars doc.plainText) h⟩
  unfold generateSnippet claimSnippet
  dsimp only
  rw [snippetMatch_spec (lowerChars doc.plainText) queryTerms]
  cases hce : claimEarliest (lowerChars doc.plainText) queryTerms with
  | none => rfl
  | some i =>
    obtain ⟨u, hu⟩ := Option.isSome_iff_exists.mp
      (claimEarliest_find_isSome (lowerChars doc.plainText) queryTerms i hce)
    dsimp only
    rw [hu]

/-- Witness for C7 at a concrete record and the term list ["b"]. -/
theorem c7_witness :
    generateSnippet w7doc ["b"] = claimSnippet w7doc ["b"] :=
  (c7_generateSnippet w7doc ["b"] (by simp)).1

/-- Counterexample to C7 as stated: a record whose description is the empty
string (present, yet falsy in JS) gets the body-prefix fallback instead of its
description when no term matches; and a record whose match window starts with
a space gets that space trimmed away, so the snippet is not exactly the
75-character window. -/
theorem c7_counterexample :
    c7doc.description = some "" ∧
    snippetMatch (lowerChars c7doc.plainText) ["zzz"] = none ∧
    generateSnippet c7doc ["zzz"] = "abc..." ∧ ("abc..." : String) ≠ "" ∧
    snippetMatch (lowerChars c7doc2.plainText) ["b"] = some (1, 1) ∧
    generateSnippet c7doc2 ["b"] = "b" ∧ ("b" : String) ≠ " b" := by
  refine ⟨rfl, by decide, by decide, by decide, by decide, by decide, by decide⟩

end ReactDocsMcp
